import Mathlib

/-!
Shifrator: an eight-round Feistel cipher over 64-bit blocks.

Shallow embedding of `Shifrator.cpp`.  Machine integers are natural numbers,
reduced modulo `2 ^ 32` or `2 ^ 64` wherever the C++ type narrows a value.
Byte sequences are lists of naturals below 256; a block is read from and
written to memory least significant byte first.
-/

namespace Shifrator

/-- Source constant `BLOCK_SIZE`. -/
def BLOCK_SIZE : Nat := 64

/-- Source constant `SUBBLOCK_SIZE`. -/
def SUBBLOCK_SIZE : Nat := 32

/-- Source constant `KEY_SIZE`. -/
def KEY_SIZE : Nat := 64

/-- Source constant `NUM_ROUNDS`. -/
abbrev NUM_ROUNDS : Nat := 8

/-- What a shift instruction yields when the count is at least the operand
width.  C++ leaves that case undefined, so the embedding carries the two
behaviours found in hardware: `wrapCount` reduces the count modulo the width,
`shiftOut` moves every bit out and leaves zero. -/
inductive OversizedShift where
  | wrapCount
  | shiftOut
  deriving DecidableEq, Repr

/-- The C++ expression `x << n` on an unsigned operand of `w` bits. -/
def shl (sem : OversizedShift) (w x n : Nat) : Nat :=
  if n < w then (x <<< n) % 2 ^ w
  else
    match sem with
    | .wrapCount => (x <<< (n % w)) % 2 ^ w
    | .shiftOut => 0

/-- The C++ expression `x >> n` on an unsigned operand of `w` bits. -/
def shr (sem : OversizedShift) (w x n : Nat) : Nat :=
  if n < w then x >>> n
  else
    match sem with
    | .wrapCount => x >>> (n % w)
    | .shiftOut => 0

/-- The two shift counts `circular_right_shift(key, n)` uses: `n` for the right
shift and `BLOCK_SIZE - n`, computed in `size_t`, for the left shift. -/
def circular_right_shift_counts (n : Nat) : Nat × Nat :=
  (n % 2 ^ 32, (BLOCK_SIZE + 2 ^ 64 - n % 2 ^ 32) % 2 ^ 64)

/-- Source function `circular_right_shift`:
`(key >> n) | (key << (BLOCK_SIZE - n))` on `uint64_t`. -/
def circular_right_shift (sem : OversizedShift) (key n : Nat) : Nat :=
  shr sem 64 key (circular_right_shift_counts n).1 |||
    shl sem 64 key (circular_right_shift_counts n).2

/-- Source function `circular_left_shift`:
`(block << n) | (block >> (SUBBLOCK_SIZE - n))` on `uint32_t`. -/
def circular_left_shift (sem : OversizedShift) (block n : Nat) : Nat :=
  (shl sem 32 block (n % 2 ^ 32) |||
    shr sem 32 block ((SUBBLOCK_SIZE + 2 ^ 64 - n % 2 ^ 32) % 2 ^ 64)) % 2 ^ 32

/-- Source function `generate_round_keys`: entry `i` is
`circular_right_shift(master_key, i * 3) & 0xFFFFFFFF`, stored as `uint32_t`. -/
def generate_round_keys (sem : OversizedShift) (master_key : Nat) :
    Fin NUM_ROUNDS → Nat :=
  fun i => (circular_right_shift sem master_key (i.val * 3) &&& 0xFFFFFFFF) % 2 ^ 32

/-- Bitwise complement of a `uint64_t`. -/
def not64 (x : Nat) : Nat := 2 ^ 64 - 1 - x % 2 ^ 64

/-- Source function `round_function`.  The 32-bit key is widened to 64 bits for
`circular_right_shift`, the complement and the exclusive or are taken in 64
bits, and the result is narrowed to `uint32_t` on return. -/
def round_function (sem : OversizedShift) (L K : Nat) : Nat :=
  (circular_left_shift sem L 9 ^^^ not64 (circular_right_shift sem K 11 &&& L)) % 2 ^ 32

/-- One pass of the loop body of `feistel_encrypt` for each listed round index,
on the pair `(L, R)`. -/
def encrypt_rounds (sem : OversizedShift) (round_keys : Fin NUM_ROUNDS → Nat) :
    List (Fin NUM_ROUNDS) → Nat × Nat → Nat × Nat
  | [], s => s
  | i :: is, (L, R) =>
    encrypt_rounds sem round_keys is (R, L ^^^ round_function sem R (round_keys i))

/-- One pass of the loop body of `feistel_decrypt` for each listed round index,
on the pair `(L, R)`. -/
def decrypt_rounds (sem : OversizedShift) (round_keys : Fin NUM_ROUNDS → Nat) :
    List (Fin NUM_ROUNDS) → Nat × Nat → Nat × Nat
  | [], s => s
  | i :: is, (L, R) =>
    decrypt_rounds sem round_keys is (R ^^^ round_function sem L (round_keys i), L)

/-- Source function `feistel_encrypt`. -/
def feistel_encrypt (sem : OversizedShift) (block : Nat)
    (round_keys : Fin NUM_ROUNDS → Nat) : Nat :=
  let L := (block >>> SUBBLOCK_SIZE) % 2 ^ 32
  let R := (block &&& (1 <<< SUBBLOCK_SIZE - 1)) % 2 ^ 32
  let s := encrypt_rounds sem round_keys (List.finRange NUM_ROUNDS) (L, R)
  (s.2 <<< SUBBLOCK_SIZE) % 2 ^ 64 ||| s.1

/-- Source function `feistel_decrypt`. -/
def feistel_decrypt (sem : OversizedShift) (block : Nat)
    (round_keys : Fin NUM_ROUNDS → Nat) : Nat :=
  let L := (block &&& (1 <<< SUBBLOCK_SIZE - 1)) % 2 ^ 32
  let R := (block >>> SUBBLOCK_SIZE) % 2 ^ 32
  let s := decrypt_rounds sem round_keys (List.finRange NUM_ROUNDS).reverse (L, R)
  (s.1 <<< SUBBLOCK_SIZE) % 2 ^ 64 ||| s.2

/-- `std::memcpy(&block, buffer.data(), 8)`: the first eight bytes of the buffer
as a `uint64_t`, least significant byte first. -/
def load_block (buffer : List Nat) : Nat :=
  (buffer.take 8).foldr (fun byte acc => byte % 256 + 256 * acc) 0

/-- The eight bytes `output_file.write` copies out of a `uint64_t`, least
significant byte first. -/
def store_block (block : Nat) : List Nat :=
  (List.range 8).map (fun i => (block / 256 ^ i) % 256)

/-- The `while` loop of `process_file`.  `input` is what is left of the input
stream, `buffer` the eight-byte read buffer, and the result is what the loop
appends to the output stream.  `fuel` bounds the number of loop tests. -/
def process_loop (sem : OversizedShift) (round_keys : Fin NUM_ROUNDS → Nat) (encrypt : Bool) :
    Nat → List Nat → List Nat → List Nat
  | 0, _, _ => []
  | fuel + 1, input, buffer =>
    let chunk := input.take (BLOCK_SIZE / 8)
    let gcount := chunk.length
    if gcount = 0 then []
    else
      let buffer1 := chunk ++ buffer.drop gcount
      let buffer2 :=
        if gcount < BLOCK_SIZE / 8 then
          buffer1.take gcount ++ List.replicate (BLOCK_SIZE / 8 - gcount) 0
        else buffer1
      let block := load_block buffer2
      let block1 :=
        if encrypt then feistel_encrypt sem block round_keys
        else feistel_decrypt sem block round_keys
      store_block block1 ++
        process_loop sem round_keys encrypt fuel (input.drop (BLOCK_SIZE / 8)) buffer2

/-- Source function `process_file` once both streams are open, as a function
from the bytes of the input file to the bytes written to the output file. -/
def process_file (sem : OversizedShift) (input : List Nat) (key : Nat) (encrypt : Bool) :
    List Nat :=
  process_loop sem (generate_round_keys sem key) encrypt (input.length + 1) input
    (List.replicate (BLOCK_SIZE / 8) 0)

/-- What `process_file` does that can be observed from outside, in order. -/
inductive Event where
  | diagnostic
  | derive_keys (key : Nat)
  | read (gcount : Nat)
  | transform (encrypt : Bool) (block : Nat)
  | write (bytes : List Nat)
  deriving DecidableEq, Repr

/-- Events other than the diagnostic: key derivation, a read from the input
stream, a block transform, a write to the output stream. -/
def Event.is_work : Event → Bool
  | .diagnostic => false
  | _ => true

/-- The bytes a run appends to the output stream. -/
def written : List Event → List Nat
  | [] => []
  | .write bytes :: rest => bytes ++ written rest
  | _ :: rest => written rest

/-- The `while` loop of `process_file` with its effects recorded: every loop
test reads from the input stream, and every pass through the body transforms
one block and writes it. -/
def process_loop_trace (sem : OversizedShift) (round_keys : Fin NUM_ROUNDS → Nat)
    (encrypt : Bool) : Nat → List Nat → List Nat → List Event
  | 0, _, _ => []
  | fuel + 1, input, buffer =>
    let chunk := input.take (BLOCK_SIZE / 8)
    let gcount := chunk.length
    if gcount = 0 then [Event.read 0]
    else
      let buffer1 := chunk ++ buffer.drop gcount
      let buffer2 :=
        if gcount < BLOCK_SIZE / 8 then
          buffer1.take gcount ++ List.replicate (BLOCK_SIZE / 8 - gcount) 0
        else buffer1
      let block := load_block buffer2
      let block1 :=
        if encrypt then feistel_encrypt sem block round_keys
        else feistel_decrypt sem block round_keys
      Event.read gcount :: Event.transform encrypt block :: Event.write (store_block block1) ::
        process_loop_trace sem round_keys encrypt fuel (input.drop (BLOCK_SIZE / 8)) buffer2

/-- Source function `process_file` from its first statement.  `input` is `none`
when the input file cannot be opened and holds its bytes otherwise;
`output_opens` tells whether the output file can be opened. -/
def process_file_trace (sem : OversizedShift) (input : Option (List Nat))
    (output_opens : Bool) (key : Nat) (encrypt : Bool) : List Event :=
  match input with
  | none => [Event.diagnostic]
  | some bytes =>
    if !output_opens then [Event.diagnostic]
    else
      Event.derive_keys key ::
        process_loop_trace sem (generate_round_keys sem key) encrypt (bytes.length + 1) bytes
          (List.replicate (BLOCK_SIZE / 8) 0)

/-! ## Reference definitions taken from the specification -/

/-- Circular right rotation of a 64-bit word by `r < 64` places, as the glossary
describes it: the `r` bits shifted out at the low end re-enter at the high end. -/
def rotate_right64 (x r : Nat) : Nat :=
  x / 2 ^ r + (x % 2 ^ r) * 2 ^ (64 - r)

/-- Circular left rotation of a 32-bit word by `r < 32` places. -/
def rotl32 (x r : Nat) : Nat :=
  (x * 2 ^ r) % 2 ^ 32 + x / 2 ^ (32 - r)

/-- Circular right rotation of a 32-bit word by `r < 32` places. -/
def rotr32 (x r : Nat) : Nat :=
  x / 2 ^ r + (x % 2 ^ r) * 2 ^ (32 - r)

/-- Bitwise complement of a 32-bit word. -/
def not32 (x : Nat) : Nat := 2 ^ 32 - 1 - x % 2 ^ 32

/-- The round function as the specification defines it:
`rotl32(L, 9) XOR NOT(rotr32(K, 11) AND L)`, every rotation 32 bits wide. -/
def round_function_spec (L K : Nat) : Nat :=
  rotl32 L 9 ^^^ not32 (rotr32 K 11 &&& L)

/-- The encrypt schedule as the specification words it: `L` is the high half,
`R` the low half, rounds 0 to 7 each perform
`(L, R) := (R, L XOR round_function(R, keys[i]))`, and the result is
`(R << 32) | L`. -/
def encrypt_reference (sem : OversizedShift) (block : Nat) (keys : Fin NUM_ROUNDS → Nat) :
    Nat :=
  let s := ([0, 1, 2, 3, 4, 5, 6, 7] : List (Fin NUM_ROUNDS)).foldl
    (fun s i => (s.2, s.1 ^^^ round_function sem s.2 (keys i)))
    ((block / 2 ^ 32) % 2 ^ 32, block % 2 ^ 32)
  s.2 * 2 ^ 32 + s.1

/-- The decrypt schedule as the specification words it: `L` is the low half,
`R` the high half, rounds 7 down to 0 each perform
`(L, R) := (R, L XOR round_function(L, keys[i]))`, and the result is
`(L << 32) | R`. -/
def decrypt_reference (sem : OversizedShift) (block : Nat) (keys : Fin NUM_ROUNDS → Nat) :
    Nat :=
  let s := ([7, 6, 5, 4, 3, 2, 1, 0] : List (Fin NUM_ROUNDS)).foldl
    (fun s i => (s.2, s.1 ^^^ round_function sem s.1 (keys i)))
    (block % 2 ^ 32, (block / 2 ^ 32) % 2 ^ 32)
  s.1 * 2 ^ 32 + s.2

/-- The decrypt schedule with the round update the code performs,
`(L, R) := (R XOR round_function(L, keys[i]), L)`, the rest as in
`decrypt_reference`. -/
def decrypt_reference_amended (sem : OversizedShift) (block : Nat)
    (keys : Fin NUM_ROUNDS → Nat) : Nat :=
  let s := ([7, 6, 5, 4, 3, 2, 1, 0] : List (Fin NUM_ROUNDS)).foldl
    (fun s i => (s.2 ^^^ round_function sem s.1 (keys i), s.1))
    (block % 2 ^ 32, (block / 2 ^ 32) % 2 ^ 32)
  s.1 * 2 ^ 32 + s.2

/-- The round keys in reversed order: entry `i` is `keys[7 - i]`. -/
def reverse_keys (keys : Fin NUM_ROUNDS → Nat) : Fin NUM_ROUNDS → Nat :=
  fun i => keys ⟨7 - i.val, by show 7 - i.val < 8; omega⟩

/-! ## Halves of a block -/

theorem low_mask_eq : (1 <<< SUBBLOCK_SIZE - 1 : Nat) = 2 ^ 32 - 1 := by decide

theorem join_eq_add (hi lo : Nat) (hhi : hi < 2 ^ 32) (hlo : lo < 2 ^ 32) :
    (hi <<< SUBBLOCK_SIZE) % 2 ^ 64 ||| lo = 2 ^ 32 * hi + lo := by
  have h1 : (hi <<< SUBBLOCK_SIZE) % 2 ^ 64 = 2 ^ 32 * hi := by
    simp only [SUBBLOCK_SIZE, Nat.shiftLeft_eq]
    omega
  rw [h1, Nat.mul_add_lt_is_or hlo]

theorem high_half (block : Nat) (h : block < 2 ^ 64) :
    (block >>> SUBBLOCK_SIZE) % 2 ^ 32 = block / 2 ^ 32 := by
  simp only [SUBBLOCK_SIZE, Nat.shiftRight_eq_div_pow]
  omega

theorem low_half (block : Nat) :
    (block &&& (1 <<< SUBBLOCK_SIZE - 1)) % 2 ^ 32 = block % 2 ^ 32 := by
  rw [low_mask_eq, Nat.and_pow_two_sub_one_eq_mod]
  omega

theorem high_half_join (hi lo : Nat) (hhi : hi < 2 ^ 32) (hlo : lo < 2 ^ 32) :
    (((hi <<< SUBBLOCK_SIZE) % 2 ^ 64 ||| lo) >>> SUBBLOCK_SIZE) % 2 ^ 32 = hi := by
  rw [join_eq_add hi lo hhi hlo]
  simp only [SUBBLOCK_SIZE, Nat.shiftRight_eq_div_pow]
  omega

theorem low_half_join (hi lo : Nat) (hhi : hi < 2 ^ 32) (hlo : lo < 2 ^ 32) :
    (((hi <<< SUBBLOCK_SIZE) % 2 ^ 64 ||| lo) &&& (1 <<< SUBBLOCK_SIZE - 1)) % 2 ^ 32 = lo := by
  rw [low_half, join_eq_add hi lo hhi hlo]
  omega

theorem join_halves (block : Nat) (h : block < 2 ^ 64) :
    (((block >>> SUBBLOCK_SIZE) % 2 ^ 32) <<< SUBBLOCK_SIZE) % 2 ^ 64 |||
      (block &&& (1 <<< SUBBLOCK_SIZE - 1)) % 2 ^ 32 = block := by
  rw [join_eq_add _ _ (Nat.mod_lt _ (by decide)) (Nat.mod_lt _ (by decide)),
    high_half block h, low_half]
  omega

theorem join_lt (hi lo : Nat) (hhi : hi < 2 ^ 32) (hlo : lo < 2 ^ 32) :
    (hi <<< SUBBLOCK_SIZE) % 2 ^ 64 ||| lo < 2 ^ 64 := by
  rw [join_eq_add hi lo hhi hlo]
  omega

/-! ## The round loops -/

theorem round_function_lt (sem : OversizedShift) (L K : Nat) :
    round_function sem L K < 2 ^ 32 :=
  Nat.mod_lt _ (by decide)

theorem encrypt_rounds_append (sem : OversizedShift) (keys : Fin NUM_ROUNDS → Nat)
    (xs ys : List (Fin NUM_ROUNDS)) (s : Nat × Nat) :
    encrypt_rounds sem keys (xs ++ ys) s =
      encrypt_rounds sem keys ys (encrypt_rounds sem keys xs s) := by
  induction xs generalizing s with
  | nil => rfl
  | cons i is ih =>
    obtain ⟨L, R⟩ := s
    exact ih _

theorem decrypt_rounds_append (sem : OversizedShift) (keys : Fin NUM_ROUNDS → Nat)
    (xs ys : List (Fin NUM_ROUNDS)) (s : Nat × Nat) :
    decrypt_rounds sem keys (xs ++ ys) s =
      decrypt_rounds sem keys ys (decrypt_rounds sem keys xs s) := by
  induction xs generalizing s with
  | nil => rfl
  | cons i is ih =>
    obtain ⟨L, R⟩ := s
    exact ih _

/-- Running the decrypt loop over the reversed index list undoes the encrypt
loop, whatever the round keys are. -/
theorem decrypt_rounds_encrypt_rounds (sem : OversizedShift)
    (keys : Fin NUM_ROUNDS → Nat) (is : List (Fin NUM_ROUNDS)) (s : Nat × Nat) :
    decrypt_rounds sem keys is.reverse (encrypt_rounds sem keys is s) = s := by
  induction is generalizing s with
  | nil => rfl
  | cons i is ih =>
    obtain ⟨L, R⟩ := s
    simp only [List.reverse_cons, encrypt_rounds, decrypt_rounds_append, ih, decrypt_rounds,
      Nat.xor_cancel_right]

/-- Running the encrypt loop undoes the decrypt loop over the reversed index
list, whatever the round keys are. -/
theorem encrypt_rounds_decrypt_rounds (sem : OversizedShift)
    (keys : Fin NUM_ROUNDS → Nat) (is : List (Fin NUM_ROUNDS)) (s : Nat × Nat) :
    encrypt_rounds sem keys is (decrypt_rounds sem keys is.reverse s) = s := by
  induction is generalizing s with
  | nil => rfl
  | cons i is ih =>
    obtain ⟨L, R⟩ := s
    have step : ∀ t : Nat × Nat,
        encrypt_rounds sem keys (i :: is) (decrypt_rounds sem keys [i] t) =
          encrypt_rounds sem keys is t := by
      rintro ⟨a, b⟩
      simp only [decrypt_rounds, encrypt_rounds, Nat.xor_cancel_right]
    rw [List.reverse_cons, decrypt_rounds_append, step, ih]

/-- Both halves stay 32-bit values through the encrypt loop. -/
theorem encrypt_rounds_lt (sem : OversizedShift) (keys : Fin NUM_ROUNDS → Nat)
    (is : List (Fin NUM_ROUNDS)) (s : Nat × Nat) (h1 : s.1 < 2 ^ 32) (h2 : s.2 < 2 ^ 32) :
    (encrypt_rounds sem keys is s).1 < 2 ^ 32 ∧ (encrypt_rounds sem keys is s).2 < 2 ^ 32 := by
  induction is generalizing s with
  | nil => exact ⟨h1, h2⟩
  | cons i is ih =>
    obtain ⟨L, R⟩ := s
    exact ih _ h2 (Nat.xor_lt_two_pow h1 (round_function_lt sem R (keys i)))

/-- Both halves stay 32-bit values through the decrypt loop. -/
theorem decrypt_rounds_lt (sem : OversizedShift) (keys : Fin NUM_ROUNDS → Nat)
    (is : List (Fin NUM_ROUNDS)) (s : Nat × Nat) (h1 : s.1 < 2 ^ 32) (h2 : s.2 < 2 ^ 32) :
    (decrypt_rounds sem keys is s).1 < 2 ^ 32 ∧ (decrypt_rounds sem keys is s).2 < 2 ^ 32 := by
  induction is generalizing s with
  | nil => exact ⟨h1, h2⟩
  | cons i is ih =>
    obtain ⟨L, R⟩ := s
    exact ih _ (Nat.xor_lt_two_pow h2 (round_function_lt sem L (keys i))) h1

/-- Decrypting an encrypted block gives the block back, for any round keys. -/
theorem feistel_decrypt_encrypt (sem : OversizedShift) (block : Nat)
    (keys : Fin NUM_ROUNDS → Nat) (h : block < 2 ^ 64) :
    feistel_decrypt sem (feistel_encrypt sem block keys) keys = block := by
  unfold feistel_decrypt feistel_encrypt
  have hb := encrypt_rounds_lt sem keys (List.finRange NUM_ROUNDS)
    ((block >>> SUBBLOCK_SIZE) % 2 ^ 32, (block &&& (1 <<< SUBBLOCK_SIZE - 1)) % 2 ^ 32)
    (Nat.mod_lt _ (by decide)) (Nat.mod_lt _ (by decide))
  simp only []
  rw [low_half_join _ _ hb.2 hb.1, high_half_join _ _ hb.2 hb.1,
    decrypt_rounds_encrypt_rounds]
  exact join_halves block h

/-- A ciphertext is a 64-bit value. -/
theorem feistel_encrypt_lt (sem : OversizedShift) (block : Nat)
    (keys : Fin NUM_ROUNDS → Nat) : feistel_encrypt sem block keys < 2 ^ 64 := by
  unfold feistel_encrypt
  have hb := encrypt_rounds_lt sem keys (List.finRange NUM_ROUNDS)
    ((block >>> SUBBLOCK_SIZE) % 2 ^ 32, (block &&& (1 <<< SUBBLOCK_SIZE - 1)) % 2 ^ 32)
    (Nat.mod_lt _ (by decide)) (Nat.mod_lt _ (by decide))
  exact join_lt _ _ hb.2 hb.1

/-- A decrypted block is a 64-bit value. -/
theorem feistel_decrypt_lt (sem : OversizedShift) (block : Nat)
    (keys : Fin NUM_ROUNDS → Nat) : feistel_decrypt sem block keys < 2 ^ 64 := by
  unfold feistel_decrypt
  have hb := decrypt_rounds_lt sem keys (List.finRange NUM_ROUNDS).reverse
    ((block &&& (1 <<< SUBBLOCK_SIZE - 1)) % 2 ^ 32, (block >>> SUBBLOCK_SIZE) % 2 ^ 32)
    (Nat.mod_lt _ (by decide)) (Nat.mod_lt _ (by decide))
  exact join_lt _ _ hb.1 hb.2

/-- Encrypting a decrypted block gives the block back, for any round keys. -/
theorem feistel_encrypt_decrypt (sem : OversizedShift) (block : Nat)
    (keys : Fin NUM_ROUNDS → Nat) (h : block < 2 ^ 64) :
    feistel_encrypt sem (feistel_decrypt sem block keys) keys = block := by
  unfold feistel_decrypt feistel_encrypt
  have hb := decrypt_rounds_lt sem keys (List.finRange NUM_ROUNDS).reverse
    ((block &&& (1 <<< SUBBLOCK_SIZE - 1)) % 2 ^ 32, (block >>> SUBBLOCK_SIZE) % 2 ^ 32)
    (Nat.mod_lt _ (by decide)) (Nat.mod_lt _ (by decide))
  simp only []
  rw [low_half_join _ _ hb.1 hb.2, high_half_join _ _ hb.1 hb.2,
    encrypt_rounds_decrypt_rounds]
  exact join_halves block h

/-! ## Rotation of a 64-bit word -/

theorem circular_right_shift_zero (sem : OversizedShift) (key : Nat) (hk : key < 2 ^ 64) :
    circular_right_shift sem key 0 = key := by
  cases sem
  · simp only [circular_right_shift, circular_right_shift_counts, shl, shr, BLOCK_SIZE]
    norm_num
    rw [show key % 18446744073709551616 = key from Nat.mod_eq_of_lt hk, Nat.or_self]
  · simp [circular_right_shift, circular_right_shift_counts, shl, shr, BLOCK_SIZE]

theorem circular_right_shift_pos (sem : OversizedShift) (key n : Nat) (hk : key < 2 ^ 64)
    (h0 : 0 < n) (hn : n < 64) :
    circular_right_shift sem key n = rotate_right64 key n := by
  have hc1 : (circular_right_shift_counts n).1 = n := by
    simp only [circular_right_shift_counts]; omega
  have hc2 : (circular_right_shift_counts n).2 = 64 - n := by
    simp only [circular_right_shift_counts, BLOCK_SIZE]; omega
  have hpow : (2 : Nat) ^ 64 = 2 ^ n * 2 ^ (64 - n) := by
    rw [← Nat.pow_add]; congr 1; omega
  have hlt : key / 2 ^ n < 2 ^ (64 - n) := by
    rw [Nat.div_lt_iff_lt_mul (Nat.pos_pow_of_pos n (by decide)), Nat.mul_comm, ← hpow]
    exact hk
  unfold circular_right_shift rotate_right64
  rw [hc1, hc2]
  simp only [shl, shr, hn, if_true, show 64 - n < 64 by omega, Nat.shiftLeft_eq,
    Nat.shiftRight_eq_div_pow]
  rw [hpow, Nat.mul_mod_mul_right, Nat.lor_comm, Nat.mul_comm (key % 2 ^ n),
    ← Nat.mul_add_lt_is_or hlt, Nat.add_comm]

/-- On a 64-bit key and a count below 64, `circular_right_shift` is the circular
right rotation, under either treatment of the oversized shift at count 0. -/
theorem circular_right_shift_eq (sem : OversizedShift) (key n : Nat) (hk : key < 2 ^ 64)
    (hn : n < 64) : circular_right_shift sem key n = rotate_right64 key n := by
  rcases Nat.eq_zero_or_pos n with h0 | h0
  · subst h0
    rw [circular_right_shift_zero sem key hk]
    simp [rotate_right64, Nat.mod_one]
  · exact circular_right_shift_pos sem key n hk h0 hn

/-- Entry `i` of the key schedule is the low half of the master key rotated
right by `3 * i`. -/
theorem generate_round_keys_eq (sem : OversizedShift) (m : Nat) (hm : m < 2 ^ 64)
    (i : Fin NUM_ROUNDS) :
    generate_round_keys sem m i = rotate_right64 m (i.val * 3) % 2 ^ 32 := by
  have hi : i.val * 3 < 64 := by have h8 : i.val < 8 := i.isLt; omega
  unfold generate_round_keys
  rw [circular_right_shift_eq sem m _ hm hi,
    show (0xFFFFFFFF : Nat) = 2 ^ 32 - 1 from rfl, Nat.and_pow_two_sub_one_eq_mod,
    Nat.mod_mod]

/-- Entry `i` of the key schedule is bits `3 * i` to `3 * i + 31` of the master
key. -/
theorem generate_round_keys_bits (sem : OversizedShift) (m : Nat) (hm : m < 2 ^ 64)
    (i : Fin NUM_ROUNDS) :
    generate_round_keys sem m i = (m >>> (i.val * 3)) % 2 ^ 32 := by
  have hi : i.val * 3 ≤ 32 := by have h8 : i.val < 8 := i.isLt; omega
  have hpow : (2 : Nat) ^ (64 - i.val * 3) = 2 ^ 32 * 2 ^ (32 - i.val * 3) := by
    rw [← Nat.pow_add]; congr 1; omega
  rw [generate_round_keys_eq sem m hm i, rotate_right64, hpow, Nat.shiftRight_eq_div_pow,
    Nat.mul_left_comm, Nat.add_mul_mod_self_left]

theorem encrypt_rounds_eq_foldl (sem : OversizedShift) (keys : Fin NUM_ROUNDS → Nat)
    (is : List (Fin NUM_ROUNDS)) (s : Nat × Nat) :
    encrypt_rounds sem keys is s =
      is.foldl (fun s i => (s.2, s.1 ^^^ round_function sem s.2 (keys i))) s := by
  induction is generalizing s with
  | nil => rfl
  | cons i is ih =>
    obtain ⟨L, R⟩ := s
    exact ih _

theorem decrypt_rounds_eq_foldl (sem : OversizedShift) (keys : Fin NUM_ROUNDS → Nat)
    (is : List (Fin NUM_ROUNDS)) (s : Nat × Nat) :
    decrypt_rounds sem keys is s =
      is.foldl (fun s i => (s.2 ^^^ round_function sem s.1 (keys i), s.1)) s := by
  induction is generalizing s with
  | nil => rfl
  | cons i is ih =>
    obtain ⟨L, R⟩ := s
    exact ih _

theorem finRange_rounds :
    List.finRange NUM_ROUNDS = ([0, 1, 2, 3, 4, 5, 6, 7] : List (Fin NUM_ROUNDS)) := by
  decide

theorem finRange_rounds_reverse :
    (List.finRange NUM_ROUNDS).reverse = ([7, 6, 5, 4, 3, 2, 1, 0] : List (Fin NUM_ROUNDS)) := by
  decide

/-- With fixed round keys `feistel_encrypt` is injective on 64-bit blocks. -/
theorem feistel_encrypt_injective (sem : OversizedShift) (keys : Fin NUM_ROUNDS → Nat)
    (b c : Nat) (hb : b < 2 ^ 64) (hc : c < 2 ^ 64)
    (h : feistel_encrypt sem b keys = feistel_encrypt sem c keys) : b = c := by
  rw [← feistel_decrypt_encrypt sem b keys hb, ← feistel_decrypt_encrypt sem c keys hc, h]

theorem xor_two_pow_ne (b j : Nat) : b ^^^ 2 ^ j ≠ b := by
  intro h
  have h2 : b ^^^ (b ^^^ 2 ^ j) = 2 ^ j := Nat.xor_cancel_left b (2 ^ j)
  rw [h, Nat.xor_self] at h2
  exact absurd h2.symm (Nat.pos_iff_ne_zero.mp (Nat.pos_pow_of_pos j (by decide)))

/-- Flipping one of the bits 53 to 63 of a master key leaves every round key as
it was. -/
theorem generate_round_keys_high_bit (sem : OversizedShift) (k j : Nat) (hk : k < 2 ^ 64)
    (h53 : 53 ≤ j) (h63 : j ≤ 63) :
    generate_round_keys sem (k ^^^ 2 ^ j) = generate_round_keys sem k := by
  have hj : (2 : Nat) ^ j < 2 ^ 64 := Nat.pow_lt_pow_right (by decide) (by omega)
  funext i
  rw [generate_round_keys_bits sem _ (Nat.xor_lt_two_pow hk hj) i,
    generate_round_keys_bits sem k hk i]
  apply Nat.eq_of_testBit_eq
  intro t
  have hi : i.val < 8 := i.isLt
  simp only [Nat.testBit_mod_two_pow, Nat.testBit_shiftRight, Nat.testBit_xor,
    Nat.testBit_two_pow]
  by_cases ht : t < 32
  · have hne : ¬ (j = i.val * 3 + t) := by omega
    simp [ht, hne]
  · simp [ht]

/-! ## Bytes and blocks -/

theorem store_block_length (x : Nat) : (store_block x).length = 8 := by
  simp [store_block]

theorem load_block_store_block (x : Nat) (hx : x < 2 ^ 64) :
    load_block (store_block x) = x := by
  simp only [load_block, store_block, List.range, List.range.loop, List.map, List.take,
    List.foldr]
  norm_num
  omega

theorem list_length_eight (l : List Nat) (h : l.length = 8) :
    ∃ a b c d e f g k, l = [a, b, c, d, e, f, g, k] := by
  match l, h with
  | [a, b, c, d, e, f, g, k], _ => exact ⟨a, b, c, d, e, f, g, k, rfl⟩

theorem store_block_load_block (l : List Nat) (h : l.length = 8) (hl : ∀ y ∈ l, y < 256) :
    store_block (load_block l) = l := by
  obtain ⟨a, b, c, d, e, f, g, k, rfl⟩ := list_length_eight l h
  have ha := hl a (by simp)
  have hb := hl b (by simp)
  have hc := hl c (by simp)
  have hd := hl d (by simp)
  have he := hl e (by simp)
  have hf := hl f (by simp)
  have hg := hl g (by simp)
  have hk := hl k (by simp)
  simp only [load_block, store_block, List.range, List.range.loop, List.map, List.take,
    List.foldr]
  norm_num
  refine ⟨?_, ?_, ?_, ?_, ?_, ?_, ?_, ?_⟩ <;> omega

theorem load_block_lt (l : List Nat) : load_block l < 2 ^ 64 := by
  have key : ∀ (n : Nat) (m : List Nat), m.length ≤ n →
      m.foldr (fun byte acc => byte % 256 + 256 * acc) 0 < 256 ^ n := by
    intro n
    induction n with
    | zero =>
      intro m hm
      have : m = [] := List.length_eq_zero.mp (Nat.le_zero.mp hm)
      subst this
      simp
    | succ n ih =>
      intro m hm
      cases m with
      | nil => simp
      | cons y ys =>
        have h1 := ih ys (by simpa using hm)
        simp only [List.foldr]
        have h2 : y % 256 < 256 := Nat.mod_lt _ (by decide)
        rw [Nat.pow_succ]
        omega
  have := key 8 (l.take 8) (by simp)
  exact this


theorem process_loop_nil (sem : OversizedShift) (keys : Fin NUM_ROUNDS → Nat) (e : Bool)
    (fuel : Nat) (buf : List Nat) : process_loop sem keys e fuel [] buf = [] := by
  cases fuel <;> simp [process_loop]

theorem load_block_buffer (input buf : List Nat) :
    load_block
        (if (input.take 8).length < 8 then
          (input.take 8 ++ buf.drop (input.take 8).length).take (input.take 8).length ++
            List.replicate (8 - (input.take 8).length) 0
        else input.take 8 ++ buf.drop (input.take 8).length) =
      load_block (input.take 8 ++ List.replicate (8 - (input.take 8).length) 0) := by
  by_cases hg : (input.take 8).length < 8
  · rw [if_pos hg, List.take_left]
  · have h8 : (input.take 8).length = 8 := by
      have := List.length_take_le 8 input
      omega
    rw [if_neg hg]
    unfold load_block
    rw [List.take_left' h8, List.take_left' h8]

theorem process_loop_step (sem : OversizedShift) (keys : Fin NUM_ROUNDS → Nat) (e : Bool)
    (fuel : Nat) (input buf : List Nat) (h : input ≠ []) :
    ∃ buf2, process_loop sem keys e (fuel + 1) input buf =
      store_block
          (if e then
            feistel_encrypt sem
              (load_block (input.take 8 ++ List.replicate (8 - (input.take 8).length) 0)) keys
          else
            feistel_decrypt sem
              (load_block (input.take 8 ++ List.replicate (8 - (input.take 8).length) 0)) keys) ++
        process_loop sem keys e fuel (input.drop 8) buf2 := by
  have hg : (input.take 8).length ≠ 0 := by
    intro h0
    have := List.length_eq_zero.mp h0
    cases input with
    | nil => exact h rfl
    | cons y ys => simp at this
  refine ⟨if (input.take 8).length < 8 then
      (input.take 8 ++ buf.drop (input.take 8).length).take (input.take 8).length ++
        List.replicate (8 - (input.take 8).length) 0
    else input.take 8 ++ buf.drop (input.take 8).length, ?_⟩
  rw [process_loop]
  simp only [BLOCK_SIZE, show 64 / 8 = 8 from rfl, hg, if_false]
  rw [load_block_buffer]

theorem padded_length (input : List Nat) :
    (input.take 8 ++ List.replicate (8 - (input.take 8).length) 0).length = 8 := by
  simp only [List.length_append, List.length_replicate, List.length_take]
  omega

theorem padded_bytes (input : List Nat) (h : ∀ y ∈ input, y < 256) :
    ∀ y ∈ input.take 8 ++ List.replicate (8 - (input.take 8).length) 0, y < 256 := by
  intro y hy
  rcases List.mem_append.mp hy with hy | hy
  · exact h y (List.mem_of_mem_take hy)
  · have := List.eq_of_mem_replicate hy
    omega

theorem padded_append (input : List Nat) (h : input ≠ []) :
    (input.take 8 ++ List.replicate (8 - (input.take 8).length) 0) ++
        (input.drop 8 ++ List.replicate ((8 - (input.drop 8).length % 8) % 8) 0) =
      input ++ List.replicate ((8 - input.length % 8) % 8) 0 := by
  have hpos : 0 < input.length := List.length_pos.mpr h
  by_cases hl : 8 ≤ input.length
  · have h8 : (input.take 8).length = 8 := by
      rw [List.length_take]; omega
    have hmod : (input.drop 8).length % 8 = input.length % 8 := by
      rw [List.length_drop]; omega
    rw [h8, hmod, Nat.sub_self, List.replicate_zero, List.append_nil, ← List.append_assoc,
      List.take_append_drop]
  · have ht : input.take 8 = input := List.take_of_length_le (by omega)
    have hd : input.drop 8 = [] := List.drop_eq_nil_of_le (by omega)
    have hm : (8 - input.length % 8) % 8 = 8 - input.length := by omega
    rw [ht, hd, hm]
    simp

theorem process_loop_round_trip (sem : OversizedShift) (keys : Fin NUM_ROUNDS → Nat) :
    ∀ (fuel : Nat) (input buf : List Nat) (fuel' : Nat) (buf' : List Nat),
      (∀ y ∈ input, y < 256) → input.length ≤ 8 * fuel →
      (process_loop sem keys true fuel input buf).length ≤ 8 * fuel' →
      process_loop sem keys false fuel' (process_loop sem keys true fuel input buf) buf' =
        input ++ List.replicate ((8 - input.length % 8) % 8) 0 := by
  intro fuel
  induction fuel with
  | zero =>
    intro input buf fuel' buf' _ hlen _
    have : input = [] := List.length_eq_zero.mp (by omega)
    subst this
    simp [process_loop, process_loop_nil]
  | succ fuel ih =>
    intro input buf fuel' buf' hbytes hlen hout
    by_cases hin : input = []
    · subst hin
      simp [process_loop_nil]
    · obtain ⟨buf2, hstep⟩ := process_loop_step sem keys true fuel input buf hin
      rw [hstep] at hout ⊢
      simp only [if_true] at hout ⊢
      generalize hP : input.take 8 ++ List.replicate (8 - (input.take 8).length) 0 = P at *
      have hPlen : P.length = 8 := hP ▸ padded_length input
      have hPbytes : ∀ y ∈ P, y < 256 := hP ▸ padded_bytes input hbytes
      generalize hS : store_block (feistel_encrypt sem (load_block P) keys) = S at *
      have hSlen : S.length = 8 := hS ▸ store_block_length _
      rw [List.length_append, hSlen] at hout
      cases fuel' with
      | zero => omega
      | succ fuel' =>
        have hne : S ++ process_loop sem keys true fuel (input.drop 8) buf2 ≠ [] := by
          intro h0
          have := congrArg List.length h0
          simp [hSlen] at this
        obtain ⟨buf3, hstep'⟩ := process_loop_step sem keys false fuel' _ buf' hne
        rw [hstep']
        simp only [Bool.false_eq_true, if_false]
        rw [List.take_left' hSlen, List.drop_left' hSlen, hSlen, Nat.sub_self,
          List.replicate_zero, List.append_nil, ← hS,
          load_block_store_block _ (feistel_encrypt_lt sem _ keys),
          feistel_decrypt_encrypt sem _ keys (load_block_lt P),
          store_block_load_block P hPlen hPbytes,
          ih (input.drop 8) buf2 fuel' buf3 (fun y hy => hbytes y (List.mem_of_mem_drop hy))
            (by rw [List.length_drop]; omega) (by omega),
          ← hP]
        exact padded_append input hin

/-! ## Decrypt as encrypt under reversed keys -/

theorem finRange_rounds_reverse_eq_map :
    (List.finRange NUM_ROUNDS).reverse =
      (List.finRange NUM_ROUNDS).map
        (fun i => (⟨7 - i.val, by show 7 - i.val < 8; omega⟩ : Fin NUM_ROUNDS)) := by
  decide

/-- The decrypt loop is the encrypt loop on the swapped pair, with the keys
looked up through the index map `g`. -/
theorem decrypt_rounds_map (sem : OversizedShift) (keys : Fin NUM_ROUNDS → Nat)
    (g : Fin NUM_ROUNDS → Fin NUM_ROUNDS) (is : List (Fin NUM_ROUNDS)) (L R : Nat) :
    decrypt_rounds sem keys (is.map g) (L, R) =
      ((encrypt_rounds sem (fun i => keys (g i)) is (R, L)).2,
        (encrypt_rounds sem (fun i => keys (g i)) is (R, L)).1) := by
  induction is generalizing L R with
  | nil => rfl
  | cons i is ih =>
    simp only [List.map, decrypt_rounds, encrypt_rounds]
    exact ih _ _

theorem feistel_decrypt_eq_encrypt_reverse (sem : OversizedShift) (block : Nat)
    (keys : Fin NUM_ROUNDS → Nat) :
    feistel_decrypt sem block keys = feistel_encrypt sem block (reverse_keys keys) := by
  unfold feistel_decrypt feistel_encrypt
  simp only []
  rw [finRange_rounds_reverse_eq_map, decrypt_rounds_map]
  rfl

/-! ## What the round function reads -/

theorem and_mod_two_pow (a b n : Nat) : (a &&& b) % 2 ^ n = a % 2 ^ n &&& b % 2 ^ n := by
  apply Nat.eq_of_testBit_eq
  intro t
  simp only [Nat.testBit_mod_two_pow, Nat.testBit_and]
  by_cases h : t < n <;> simp [h]

theorem xor_mod_two_pow (a b n : Nat) : (a ^^^ b) % 2 ^ n = a % 2 ^ n ^^^ b % 2 ^ n := by
  apply Nat.eq_of_testBit_eq
  intro t
  simp only [Nat.testBit_mod_two_pow, Nat.testBit_xor]
  by_cases h : t < n <;> simp [h]

theorem not64_mod (x : Nat) : not64 x % 2 ^ 32 = not32 x := by
  unfold not64 not32
  omega

theorem circular_left_shift_nine (sem : OversizedShift) (L : Nat) (hL : L < 2 ^ 32) :
    circular_left_shift sem L 9 = rotl32 L 9 := by
  have hlt : L / 2 ^ 23 < 2 ^ 9 := by omega
  have h1 : (L * 2 ^ 9) % 2 ^ 32 = 2 ^ 9 * (L % 2 ^ 23) := by omega
  unfold circular_left_shift rotl32
  simp only [shl, shr, SUBBLOCK_SIZE, show 9 % 2 ^ 32 = 9 from rfl,
    show (32 + 2 ^ 64 - 9) % 2 ^ 64 = 23 from rfl, show 9 < 32 from by decide,
    show 23 < 32 from by decide, if_true, Nat.shiftLeft_eq, Nat.shiftRight_eq_div_pow,
    show 32 - 9 = 23 from rfl]
  rw [h1, ← Nat.mul_add_lt_is_or hlt]
  omega

theorem circular_left_shift_mod (sem : OversizedShift) (L n : Nat) :
    circular_left_shift sem L n % 2 ^ 32 = circular_left_shift sem L n := by
  unfold circular_left_shift
  exact Nat.mod_mod _ _

theorem circular_right_shift_eleven_mod (sem : OversizedShift) (K : Nat) (hK : K < 2 ^ 64) :
    circular_right_shift sem K 11 % 2 ^ 32 = (K >>> 11) % 2 ^ 32 := by
  rw [circular_right_shift_pos sem K 11 hK (by decide) (by decide), rotate_right64,
    Nat.shiftRight_eq_div_pow]
  omega

/-- The round function reads the key only through `K >> 11`. -/
theorem round_function_eq (sem : OversizedShift) (L K : Nat) (hK : K < 2 ^ 64) :
    round_function sem L K =
      circular_left_shift sem L 9 ^^^ not32 ((K >>> 11) % 2 ^ 32 &&& L % 2 ^ 32) := by
  have hn : ∀ x y : Nat, x % 2 ^ 32 = y % 2 ^ 32 → not32 x = not32 y := by
    intro x y h
    unfold not32
    rw [h]
  unfold round_function
  rw [xor_mod_two_pow, circular_left_shift_mod, not64_mod]
  congr 1
  apply hn
  rw [and_mod_two_pow, circular_right_shift_eleven_mod sem K hK, and_mod_two_pow,
    Nat.mod_mod, Nat.mod_mod]

theorem generate_round_keys_lt (sem : OversizedShift) (k : Nat) (i : Fin NUM_ROUNDS) :
    generate_round_keys sem k i < 2 ^ 32 :=
  Nat.mod_lt _ (by decide)

theorem round_function_congr_key (sem : OversizedShift) (K1 K2 : Nat) (h1 : K1 < 2 ^ 64)
    (h2 : K2 < 2 ^ 64) (h : (K1 >>> 11) % 2 ^ 32 = (K2 >>> 11) % 2 ^ 32) (L : Nat) :
    round_function sem L K1 = round_function sem L K2 := by
  rw [round_function_eq sem L K1 h1, round_function_eq sem L K2 h2, h]

theorem shiftRight_eleven_eq (K1 K2 : Nat) (h1 : K1 < 2 ^ 32) (h2 : K2 < 2 ^ 32)
    (h : ∀ t, 11 ≤ t → t ≤ 31 → K1.testBit t = K2.testBit t) : K1 >>> 11 = K2 >>> 11 := by
  apply Nat.eq_of_testBit_eq
  intro t
  rw [Nat.testBit_shiftRight, Nat.testBit_shiftRight]
  by_cases ht : 11 + t ≤ 31
  · exact h (11 + t) (by omega) ht
  · have hp : (2 : Nat) ^ 32 ≤ 2 ^ (11 + t) := Nat.pow_le_pow_right (by decide) (by omega)
    rw [Nat.testBit_lt_two_pow (Nat.lt_of_lt_of_le h1 hp),
      Nat.testBit_lt_two_pow (Nat.lt_of_lt_of_le h2 hp)]

/-- Master keys that agree on bits 11 to 52 derive round keys that agree after
the shift by 11 the round function applies. -/
theorem generate_round_keys_shift_eq (sem : OversizedShift) (k1 k2 : Nat) (h1 : k1 < 2 ^ 64)
    (h2 : k2 < 2 ^ 64) (h : ∀ t, 11 ≤ t → t ≤ 52 → k1.testBit t = k2.testBit t)
    (i : Fin NUM_ROUNDS) :
    (generate_round_keys sem k1 i >>> 11) % 2 ^ 32 =
      (generate_round_keys sem k2 i >>> 11) % 2 ^ 32 := by
  have h8 : i.val < 8 := i.isLt
  rw [generate_round_keys_bits sem k1 h1 i, generate_round_keys_bits sem k2 h2 i]
  apply Nat.eq_of_testBit_eq
  intro t
  simp only [Nat.testBit_mod_two_pow, Nat.testBit_shiftRight]
  by_cases ht : 11 + t < 32
  · rw [h (i.val * 3 + (11 + t)) (by omega) (by omega)]
  · simp [ht]

theorem encrypt_rounds_congr (sem : OversizedShift) (k1 k2 : Fin NUM_ROUNDS → Nat)
    (h : ∀ i L, round_function sem L (k1 i) = round_function sem L (k2 i))
    (is : List (Fin NUM_ROUNDS)) (s : Nat × Nat) :
    encrypt_rounds sem k1 is s = encrypt_rounds sem k2 is s := by
  induction is generalizing s with
  | nil => rfl
  | cons i is ih =>
    obtain ⟨L, R⟩ := s
    simp only [encrypt_rounds, h, ih]

theorem decrypt_rounds_congr (sem : OversizedShift) (k1 k2 : Fin NUM_ROUNDS → Nat)
    (h : ∀ i L, round_function sem L (k1 i) = round_function sem L (k2 i))
    (is : List (Fin NUM_ROUNDS)) (s : Nat × Nat) :
    decrypt_rounds sem k1 is s = decrypt_rounds sem k2 is s := by
  induction is generalizing s with
  | nil => rfl
  | cons i is ih =>
    obtain ⟨L, R⟩ := s
    simp only [decrypt_rounds, h, ih]

/-! ## The file loop, block by block -/

theorem process_loop_fuel (sem : OversizedShift) (keys : Fin NUM_ROUNDS → Nat) (e : Bool) :
    ∀ (fuel fuel1 : Nat) (input buf buf1 : List Nat),
      input.length ≤ 8 * fuel → input.length ≤ 8 * fuel1 →
      process_loop sem keys e fuel input buf = process_loop sem keys e fuel1 input buf1 := by
  intro fuel
  induction fuel with
  | zero =>
    intro fuel1 input buf buf1 h _
    have : input = [] := List.length_eq_zero.mp (by omega)
    subst this
    rw [process_loop_nil, process_loop_nil]
  | succ fuel ih =>
    intro fuel1 input buf buf1 h h1
    by_cases hin : input = []
    · subst hin
      rw [process_loop_nil, process_loop_nil]
    · have hpos : 0 < input.length := List.length_pos.mpr hin
      cases fuel1 with
      | zero => omega
      | succ fuel1 =>
        obtain ⟨b2, hs⟩ := process_loop_step sem keys e fuel input buf hin
        obtain ⟨b3, hs1⟩ := process_loop_step sem keys e fuel1 input buf1 hin
        rw [hs, hs1, ih fuel1 (input.drop 8) b2 b3 (by rw [List.length_drop]; omega)
          (by rw [List.length_drop]; omega)]

theorem process_loop_length (sem : OversizedShift) (keys : Fin NUM_ROUNDS → Nat) (e : Bool) :
    ∀ (fuel : Nat) (input buf : List Nat), input.length ≤ 8 * fuel →
      (process_loop sem keys e fuel input buf).length = 8 * ((input.length + 7) / 8) := by
  intro fuel
  induction fuel with
  | zero =>
    intro input buf h
    have : input = [] := List.length_eq_zero.mp (by omega)
    subst this
    simp [process_loop_nil]
  | succ fuel ih =>
    intro input buf h
    by_cases hin : input = []
    · subst hin
      simp [process_loop_nil]
    · have hpos : 0 < input.length := List.length_pos.mpr hin
      obtain ⟨b2, hs⟩ := process_loop_step sem keys e fuel input buf hin
      rw [hs, List.length_append, store_block_length,
        ih (input.drop 8) b2 (by rw [List.length_drop]; omega), List.length_drop]
      omega

theorem process_loop_block (sem : OversizedShift) (keys : Fin NUM_ROUNDS → Nat) (e : Bool) :
    ∀ (i fuel : Nat) (input buf : List Nat), input.length ≤ 8 * fuel → 8 * i < input.length →
      ((process_loop sem keys e fuel input buf).drop (8 * i)).take 8 =
        store_block
          (if e then
            feistel_encrypt sem
              (load_block
                (((input ++ List.replicate ((8 - input.length % 8) % 8) 0).drop (8 * i)).take 8))
              keys
          else
            feistel_decrypt sem
              (load_block
                (((input ++ List.replicate ((8 - input.length % 8) % 8) 0).drop (8 * i)).take 8))
              keys) := by
  intro i
  induction i with
  | zero =>
    intro fuel input buf h hi
    have hin : input ≠ [] := by
      intro h0; subst h0; simp at hi
    cases fuel with
    | zero => omega
    | succ fuel =>
      obtain ⟨b2, hs⟩ := process_loop_step sem keys e fuel input buf hin
      rw [hs, ← padded_append input hin]
      simp only [Nat.mul_zero, List.drop_zero]
      rw [List.take_left' (padded_length input), List.take_left' (store_block_length _)]
  | succ i ih =>
    intro fuel input buf h hi
    have hin : input ≠ [] := by
      intro h0; subst h0; simp at hi
    cases fuel with
    | zero => omega
    | succ fuel =>
      obtain ⟨b2, hs⟩ := process_loop_step sem keys e fuel input buf hin
      have h8 : 8 * (i + 1) = 8 + 8 * i := by omega
      have hd : ∀ (S rest : List Nat), S.length = 8 →
          (S ++ rest).drop (8 * (i + 1)) = rest.drop (8 * i) := by
        intro S rest hS
        rw [h8, ← hS, List.drop_append]
      rw [hs, ← padded_append input hin, hd _ _ (store_block_length _),
        hd _ _ (padded_length input)]
      exact ih fuel (input.drop 8) b2 (by rw [List.length_drop]; omega)
        (by rw [List.length_drop]; omega)

theorem process_loop_append (sem : OversizedShift) (keys : Fin NUM_ROUNDS → Nat) (e : Bool) :
    ∀ (fa : Nat) (a : List Nat), a.length % 8 = 0 → a.length ≤ 8 * fa →
      ∀ (f fb : Nat) (b buf buf1 buf2 : List Nat),
        (a ++ b).length ≤ 8 * f → b.length ≤ 8 * fb →
        process_loop sem keys e f (a ++ b) buf =
          process_loop sem keys e fa a buf1 ++ process_loop sem keys e fb b buf2 := by
  intro fa
  induction fa with
  | zero =>
    intro a _ ha f fb b buf buf1 buf2 hf hfb
    have : a = [] := List.length_eq_zero.mp (by omega)
    subst this
    rw [process_loop_nil, List.nil_append, List.nil_append]
    exact process_loop_fuel sem keys e f fb b buf buf2 (by simpa using hf) hfb
  | succ fa ih =>
    intro a hmod ha f fb b buf buf1 buf2 hf hfb
    by_cases hin : a = []
    · subst hin
      rw [process_loop_nil, List.nil_append, List.nil_append]
      exact process_loop_fuel sem keys e f fb b buf buf2 (by simpa using hf) hfb
    · have hpos : 0 < a.length := List.length_pos.mpr hin
      have h8 : 8 ≤ a.length := by omega
      have hab : a ++ b ≠ [] := by
        intro h0
        exact hin (List.append_eq_nil.mp h0).1
      rw [List.length_append] at hf
      cases f with
      | zero => omega
      | succ f =>
        obtain ⟨b2, hs⟩ := process_loop_step sem keys e f (a ++ b) buf hab
        obtain ⟨b3, hs1⟩ := process_loop_step sem keys e fa a buf1 hin
        rw [hs, hs1, List.take_append_of_le_length h8, List.drop_append_of_le_length h8,
          List.append_assoc]
        congr 1
        exact ih (a.drop 8) (by rw [List.length_drop]; omega)
          (by rw [List.length_drop]; omega) f fb b b2 b3 buf2
          (by rw [List.length_append, List.length_drop]; omega) hfb

theorem written_process_loop_trace (sem : OversizedShift) (keys : Fin NUM_ROUNDS → Nat)
    (e : Bool) :
    ∀ (fuel : Nat) (input buf : List Nat),
      written (process_loop_trace sem keys e fuel input buf) =
        process_loop sem keys e fuel input buf := by
  intro fuel
  induction fuel with
  | zero =>
    intro input buf
    rfl
  | succ fuel ih =>
    intro input buf
    rw [process_loop_trace, process_loop]
    by_cases hg : (input.take (BLOCK_SIZE / 8)).length = 0
    · simp only [hg, if_true, written]
    · simp only [hg, if_false, written, ih]

/-- With both streams open the bytes the recorded run writes are the bytes of
`process_file`. -/
theorem written_process_file_trace (sem : OversizedShift) (input : List Nat) (key : Nat)
    (e : Bool) :
    written (process_file_trace sem (some input) true key e) = process_file sem input key e := by
  simp only [process_file_trace, Bool.not_true, Bool.false_eq_true, if_false, written,
    process_file, written_process_loop_trace]

/-! ## Claims -/

/-- C1: for every 64-bit block `b` and every master key `k`, decrypting the
encryption of `b` under the round keys derived from `k` gives `b` back. -/
theorem round_trip (sem : OversizedShift) (b k : Nat) (hb : b < 2 ^ 64) :
    feistel_decrypt sem (feistel_encrypt sem b (generate_round_keys sem k))
      (generate_round_keys sem k) = b :=
  feistel_decrypt_encrypt sem b (generate_round_keys sem k) hb

theorem round_trip_witness :
    (0x0123456789ABCDEF : Nat) < 2 ^ 64 ∧
      feistel_decrypt .wrapCount
        (feistel_encrypt .wrapCount 0x0123456789ABCDEF
          (generate_round_keys .wrapCount 0xAAAAAAAAAAAAAAAA))
        (generate_round_keys .wrapCount 0xAAAAAAAAAAAAAAAA) = 0x0123456789ABCDEF :=
  ⟨by decide, round_trip .wrapCount 0x0123456789ABCDEF 0xAAAAAAAAAAAAAAAA (by decide)⟩

/-- C2: at `L = 0xFFFFFFFF`, `K = 1` the code's `round_function` returns `0`,
while the specified formula with a 32-bit circular rotation of the key gives
`0x00200000`: bit 0 of the key, rotated to bit 21, is lost in the code. -/
theorem round_function_drops_rotated_bits (sem : OversizedShift) :
    round_function sem 0xFFFFFFFF 1 = 0 ∧ round_function_spec 0xFFFFFFFF 1 = 0x00200000 := by
  cases sem <;> decide

/-- C3: for every 64-bit master key `m` and round index `i` in 0..7, round key
`i` is the low 32 bits of `m` rotated right circularly by `3 * i mod 64`; at
`i = 0` this is the low half of `m` itself. -/
theorem key_schedule_formula (sem : OversizedShift) (m : Nat) (hm : m < 2 ^ 64)
    (i : Fin NUM_ROUNDS) :
    generate_round_keys sem m i = rotate_right64 m ((3 * i.val) % 64) % 2 ^ 32 := by
  have hi : (3 * i.val) % 64 = i.val * 3 := by have h8 : i.val < 8 := i.isLt; omega
  rw [hi]
  exact generate_round_keys_eq sem m hm i

theorem key_schedule_formula_witness :
    (0x0123456789ABCDEF : Nat) < 2 ^ 64 ∧
      generate_round_keys .wrapCount 0x0123456789ABCDEF 0 =
        rotate_right64 0x0123456789ABCDEF ((3 * (0 : Fin NUM_ROUNDS).val) % 64) % 2 ^ 32 :=
  ⟨by decide, key_schedule_formula .wrapCount 0x0123456789ABCDEF (by decide) 0⟩

/-- C4 (as amended): `feistel_decrypt` takes `L` from the low half and `R` from
the high half, performs `(L, R) := (R XOR round_function(L, keys[i]), L)` for
`i` from 7 down to 0, and returns `(L << 32) | R`. -/
theorem feistel_decrypt_eq_amended_reference (sem : OversizedShift) (block : Nat)
    (keys : Fin NUM_ROUNDS → Nat) :
    feistel_decrypt sem block keys = decrypt_reference_amended sem block keys := by
  have hb := decrypt_rounds_lt sem keys (List.finRange NUM_ROUNDS).reverse
    ((block &&& (1 <<< SUBBLOCK_SIZE - 1)) % 2 ^ 32, (block >>> SUBBLOCK_SIZE) % 2 ^ 32)
    (Nat.mod_lt _ (by decide)) (Nat.mod_lt _ (by decide))
  unfold feistel_decrypt decrypt_reference_amended
  simp only []
  rw [join_eq_add _ _ hb.1 hb.2, decrypt_rounds_eq_foldl, finRange_rounds_reverse, low_half]
  simp only [SUBBLOCK_SIZE, Nat.shiftRight_eq_div_pow]
  exact Nat.mul_comm _ _ ▸ rfl

/-- C4 (as stated) fails: on the zero block under all-zero round keys the code
returns `0x00000000FFFFFFFF`, the schedule with the update
`(L, R) := (R, L XOR round_function(L, keys[i]))` returns `0xFFFFFFFFFFFFFFFF`. -/
theorem feistel_decrypt_ne_reference :
    feistel_decrypt .wrapCount 0 (fun _ => 0) = 0x00000000FFFFFFFF ∧
      decrypt_reference .wrapCount 0 (fun _ => 0) = 0xFFFFFFFFFFFFFFFF ∧
      feistel_decrypt .shiftOut 0 (fun _ => 0) = 0x00000000FFFFFFFF ∧
      decrypt_reference .shiftOut 0 (fun _ => 0) = 0xFFFFFFFFFFFFFFFF := by
  decide

/-- C5: `feistel_encrypt` takes `L` from the high half and `R` from the low
half, performs `(L, R) := (R, L XOR round_function(R, keys[i]))` for `i` from 0
up to 7, and returns `(R << 32) | L`. -/
theorem feistel_encrypt_eq_reference (sem : OversizedShift) (block : Nat)
    (keys : Fin NUM_ROUNDS → Nat) :
    feistel_encrypt sem block keys = encrypt_reference sem block keys := by
  have hb := encrypt_rounds_lt sem keys (List.finRange NUM_ROUNDS)
    ((block >>> SUBBLOCK_SIZE) % 2 ^ 32, (block &&& (1 <<< SUBBLOCK_SIZE - 1)) % 2 ^ 32)
    (Nat.mod_lt _ (by decide)) (Nat.mod_lt _ (by decide))
  unfold feistel_encrypt encrypt_reference
  simp only []
  rw [join_eq_add _ _ hb.2 hb.1, encrypt_rounds_eq_foldl, finRange_rounds, low_half]
  simp only [SUBBLOCK_SIZE, Nat.shiftRight_eq_div_pow]
  exact Nat.mul_comm _ _ ▸ rfl

/-- C6 (as amended): each of the master-key bits 11 to 52 can change the
ciphertext (flipping it in the zero key changes the encryption of the all-ones
block), and flipping one of the bits 53 to 63 never changes the ciphertext. -/
theorem key_sensitivity_amended (sem : OversizedShift) :
    (∀ j : Nat, 11 ≤ j → j ≤ 52 →
      feistel_encrypt sem 0xFFFFFFFFFFFFFFFF (generate_round_keys sem (0 ^^^ 2 ^ j)) ≠
        feistel_encrypt sem 0xFFFFFFFFFFFFFFFF (generate_round_keys sem 0)) ∧
    (∀ b k j : Nat, k < 2 ^ 64 → 53 ≤ j → j ≤ 63 →
      feistel_encrypt sem b (generate_round_keys sem (k ^^^ 2 ^ j)) =
        feistel_encrypt sem b (generate_round_keys sem k)) := by
  constructor
  · intro j h11 h52
    interval_cases j <;> cases sem <;> decide
  · intro b k j hk h53 h63
    rw [generate_round_keys_high_bit sem k j hk h53 h63]

theorem key_sensitivity_amended_witness :
    feistel_encrypt .wrapCount 0xFFFFFFFFFFFFFFFF (generate_round_keys .wrapCount (0 ^^^ 2 ^ 11)) ≠
        feistel_encrypt .wrapCount 0xFFFFFFFFFFFFFFFF (generate_round_keys .wrapCount 0) ∧
      feistel_encrypt .wrapCount 5 (generate_round_keys .wrapCount (7 ^^^ 2 ^ 53)) =
        feistel_encrypt .wrapCount 5 (generate_round_keys .wrapCount 7) :=
  ⟨(key_sensitivity_amended .wrapCount).1 11 (by decide) (by decide),
    (key_sensitivity_amended .wrapCount).2 5 7 53 (by decide) (by decide) (by decide)⟩

/-- C6 (as stated) fails: flipping bit 63 of the zero master key leaves the
encryption of the zero block unchanged. -/
theorem key_sensitivity_fails :
    feistel_encrypt .wrapCount 0 (generate_round_keys .wrapCount (0 ^^^ 2 ^ 63)) =
        feistel_encrypt .wrapCount 0 (generate_round_keys .wrapCount 0) ∧
      feistel_encrypt .shiftOut 0 (generate_round_keys .shiftOut (0 ^^^ 2 ^ 63)) =
        feistel_encrypt .shiftOut 0 (generate_round_keys .shiftOut 0) := by
  decide

/-- C7: for every master key `k`, 64-bit block `b` and bit position `j` in 0..63,
flipping bit `j` of `b` changes the ciphertext; more generally, with fixed round
keys two 64-bit blocks with the same ciphertext are equal. -/
theorem block_sensitivity (sem : OversizedShift) (k b j : Nat) (hb : b < 2 ^ 64)
    (hj : j < 64) :
    feistel_encrypt sem (b ^^^ 2 ^ j) (generate_round_keys sem k) ≠
        feistel_encrypt sem b (generate_round_keys sem k) ∧
      ∀ (keys : Fin NUM_ROUNDS → Nat) (c : Nat), c < 2 ^ 64 →
        feistel_encrypt sem b keys = feistel_encrypt sem c keys → b = c := by
  constructor
  · intro h
    have hflip : b ^^^ 2 ^ j < 2 ^ 64 :=
      Nat.xor_lt_two_pow hb (Nat.pow_lt_pow_right (by decide) hj)
    exact xor_two_pow_ne b j (feistel_encrypt_injective sem _ _ _ hflip hb h)
  · intro keys c hc h
    exact feistel_encrypt_injective sem keys b c hb hc h

theorem block_sensitivity_witness :
    (0x0123456789ABCDEF : Nat) < 2 ^ 64 ∧ (17 : Nat) < 64 ∧
      feistel_encrypt .shiftOut (0x0123456789ABCDEF ^^^ 2 ^ 17)
          (generate_round_keys .shiftOut 0xAAAAAAAAAAAAAAAA) ≠
        feistel_encrypt .shiftOut 0x0123456789ABCDEF
          (generate_round_keys .shiftOut 0xAAAAAAAAAAAAAAAA) :=
  ⟨by decide, by decide,
    (block_sensitivity .shiftOut 0xAAAAAAAAAAAAAAAA 0x0123456789ABCDEF 17 (by decide)
      (by decide)).1⟩

/-- C8: in round 0 of the key schedule `circular_right_shift` is called with
count 0 and its left shift uses the count 64, the full width of the operand;
the two counts are both below 64 exactly in rounds 1 to 7. -/
theorem round_zero_shift_count :
    circular_right_shift_counts (0 * 3) = (0, 64) ∧
      ∀ i : Fin NUM_ROUNDS,
        ((circular_right_shift_counts (i.val * 3)).1 < 64 ∧
          (circular_right_shift_counts (i.val * 3)).2 < 64) ↔ i ≠ 0 := by
  decide

/-- C9: for every byte sequence whose length is a multiple of 8 and every key,
`process_file` in encrypt mode followed by `process_file` in decrypt mode with
the same key gives the byte sequence back. -/
theorem file_round_trip (sem : OversizedShift) (input : List Nat) (k : Nat)
    (hbytes : ∀ y ∈ input, y < 256) (hlen : input.length % 8 = 0) :
    process_file sem (process_file sem input k true) k false = input := by
  unfold process_file
  rw [process_loop_round_trip sem _ _ _ _ _ _ hbytes (by omega) (by omega), hlen]
  simp

theorem file_round_trip_witness :
    (∀ y ∈ [1, 2, 3, 4, 5, 6, 7, 8], y < 256) ∧ [1, 2, 3, 4, 5, 6, 7, 8].length % 8 = 0 ∧
      process_file .wrapCount
          (process_file .wrapCount [1, 2, 3, 4, 5, 6, 7, 8] 0xAAAAAAAAAAAAAAAA true)
          0xAAAAAAAAAAAAAAAA false = [1, 2, 3, 4, 5, 6, 7, 8] :=
  ⟨by decide, by decide,
    file_round_trip .wrapCount [1, 2, 3, 4, 5, 6, 7, 8] 0xAAAAAAAAAAAAAAAA (by decide)
      (by decide)⟩

/-- C10: for every byte sequence whose length `n` is not a multiple of 8 and
every key, `process_file` in encrypt mode followed by `process_file` in decrypt
mode with the same key gives the `n` bytes followed by `8 - n mod 8` zero
bytes. -/
theorem padding_round_trip (sem : OversizedShift) (input : List Nat) (k : Nat)
    (hbytes : ∀ y ∈ input, y < 256) (hlen : input.length % 8 ≠ 0) :
    process_file sem (process_file sem input k true) k false =
      input ++ List.replicate (8 - input.length % 8) 0 := by
  unfold process_file
  rw [process_loop_round_trip sem _ _ _ _ _ _ hbytes (by omega) (by omega)]
  congr 2
  omega

theorem padding_round_trip_witness :
    (∀ y ∈ [1, 2, 3, 4, 5], y < 256) ∧ [1, 2, 3, 4, 5].length % 8 ≠ 0 ∧
      process_file .wrapCount (process_file .wrapCount [1, 2, 3, 4, 5] 0xAAAAAAAAAAAAAAAA true)
          0xAAAAAAAAAAAAAAAA false = [1, 2, 3, 4, 5, 0, 0, 0] :=
  ⟨by decide, by decide,
    padding_round_trip .wrapCount [1, 2, 3, 4, 5] 0xAAAAAAAAAAAAAAAA (by decide) (by decide)⟩

/-- C11: for every input of `n` bytes, every key and either mode, the output of
`process_file` has `8 * ceil(n / 8)` bytes, `n` rounded up to the next multiple
of 8; the empty input gives the empty output. -/
theorem output_length (sem : OversizedShift) (input : List Nat) (key : Nat) (e : Bool) :
    (process_file sem input key e).length = 8 * ((input.length + 7) / 8) ∧
      (process_file sem input key e).length % 8 = 0 ∧
      input.length ≤ (process_file sem input key e).length ∧
      (process_file sem input key e).length < input.length + 8 ∧
      process_file sem [] key e = [] := by
  have h : (process_file sem input key e).length = 8 * ((input.length + 7) / 8) := by
    unfold process_file
    exact process_loop_length sem _ e _ input _ (by omega)
  refine ⟨h, ?_, ?_, ?_, ?_⟩
  · omega
  · omega
  · omega
  · unfold process_file
    exact process_loop_nil sem _ e _ _

/-- C12: the `i`-th 8-byte group of the output of `process_file` is the byte
encoding of the selected transform applied to the block decoded from the
`i`-th 8-byte chunk of the zero-padded input, and of nothing else; and
`process_file` of `a ++ b` is `process_file` of `a` followed by `process_file`
of `b` whenever the length of `a` is a multiple of 8. -/
theorem blockwise_transform (sem : OversizedShift) (input : List Nat) (key : Nat) (e : Bool) :
    (∀ i : Nat, 8 * i < input.length →
      ((process_file sem input key e).drop (8 * i)).take 8 =
        store_block
          (if e then
            feistel_encrypt sem
              (load_block
                (((input ++ List.replicate ((8 - input.length % 8) % 8) 0).drop (8 * i)).take 8))
              (generate_round_keys sem key)
          else
            feistel_decrypt sem
              (load_block
                (((input ++ List.replicate ((8 - input.length % 8) % 8) 0).drop (8 * i)).take 8))
              (generate_round_keys sem key))) ∧
      ∀ a b : List Nat, a.length % 8 = 0 →
        process_file sem (a ++ b) key e = process_file sem a key e ++ process_file sem b key e := by
  constructor
  · intro i hi
    unfold process_file
    exact process_loop_block sem _ e i _ input _ (by omega) hi
  · intro a b ha
    unfold process_file
    exact process_loop_append sem _ e _ a ha (by omega) _ _ b _ _ _ (by omega) (by omega)

theorem blockwise_transform_witness :
    ((process_file .wrapCount [1, 2, 3, 4, 5, 6, 7, 8, 9, 10] 0xAAAAAAAAAAAAAAAA true).drop
        (8 * 1)).take 8 =
      store_block
        (feistel_encrypt .wrapCount (load_block [9, 10, 0, 0, 0, 0, 0, 0])
          (generate_round_keys .wrapCount 0xAAAAAAAAAAAAAAAA)) ∧
      process_file .wrapCount ([1, 2, 3, 4, 5, 6, 7, 8] ++ [9, 10]) 0xAAAAAAAAAAAAAAAA true =
        process_file .wrapCount [1, 2, 3, 4, 5, 6, 7, 8] 0xAAAAAAAAAAAAAAAA true ++
          process_file .wrapCount [9, 10] 0xAAAAAAAAAAAAAAAA true :=
  ⟨(blockwise_transform .wrapCount [1, 2, 3, 4, 5, 6, 7, 8, 9, 10] 0xAAAAAAAAAAAAAAAA true).1 1
      (by decide),
    (blockwise_transform .wrapCount [] 0xAAAAAAAAAAAAAAAA true).2 [1, 2, 3, 4, 5, 6, 7, 8]
      [9, 10] (by decide)⟩

/-- C13: when the input file or the output file cannot be opened, `process_file`
emits the diagnostic and nothing else: it derives no round keys, reads no
block, transforms no block and writes no byte. -/
theorem open_failure_aborts (sem : OversizedShift) (input : Option (List Nat))
    (output_opens : Bool) (key : Nat) (e : Bool)
    (h : input = none ∨ output_opens = false) :
    process_file_trace sem input output_opens key e = [Event.diagnostic] ∧
      (∀ ev ∈ process_file_trace sem input output_opens key e, ev.is_work = false) ∧
      written (process_file_trace sem input output_opens key e) = [] := by
  have ht : process_file_trace sem input output_opens key e = [Event.diagnostic] := by
    rcases h with h | h
    · subst h
      rfl
    · subst h
      cases input <;> rfl
  rw [ht]
  refine ⟨rfl, ?_, rfl⟩
  intro ev hev
  rw [List.mem_singleton.mp hev]
  rfl

theorem open_failure_aborts_witness :
    ((some [1, 2, 3] : Option (List Nat)) = none ∨ false = false) ∧
      process_file_trace .wrapCount (some [1, 2, 3]) false 0xAAAAAAAAAAAAAAAA true =
        [Event.diagnostic] :=
  ⟨Or.inr rfl,
    (open_failure_aborts .wrapCount (some [1, 2, 3]) false 0xAAAAAAAAAAAAAAAA true
      (Or.inr rfl)).1⟩

/-- C14: for every 64-bit block `b` and every array of 8 round keys, derived
from a master key or not, encrypting the decryption of `b` gives `b` and
decrypting the encryption of `b` gives `b`. -/
theorem encrypt_decrypt_inverse (sem : OversizedShift) (b : Nat)
    (keys : Fin NUM_ROUNDS → Nat) (hb : b < 2 ^ 64) :
    feistel_encrypt sem (feistel_decrypt sem b keys) keys = b ∧
      feistel_decrypt sem (feistel_encrypt sem b keys) keys = b :=
  ⟨feistel_encrypt_decrypt sem b keys hb, feistel_decrypt_encrypt sem b keys hb⟩

theorem encrypt_decrypt_inverse_witness :
    (0xFEDCBA9876543210 : Nat) < 2 ^ 64 ∧
      feistel_encrypt .wrapCount
          (feistel_decrypt .wrapCount 0xFEDCBA9876543210 (fun i => 0x9E3779B9 + i.val))
          (fun i => 0x9E3779B9 + i.val) = 0xFEDCBA9876543210 ∧
      feistel_decrypt .wrapCount
          (feistel_encrypt .wrapCount 0xFEDCBA9876543210 (fun i => 0x9E3779B9 + i.val))
          (fun i => 0x9E3779B9 + i.val) = 0xFEDCBA9876543210 :=
  ⟨by decide,
    encrypt_decrypt_inverse .wrapCount 0xFEDCBA9876543210 (fun i => 0x9E3779B9 + i.val)
      (by decide)⟩

/-- C15: for every block and all 64-bit master keys `k`, `k1` that agree on
bit positions 11 to 52, encryption under the keys derived from `k` and from
`k1` coincide, and so do the decryptions: no bit outside those 42 positions
reaches the cipher output. -/
theorem effective_key_bits (sem : OversizedShift) (b k k1 : Nat) (hk : k < 2 ^ 64)
    (hk1 : k1 < 2 ^ 64) (h : ∀ t, 11 ≤ t → t ≤ 52 → k.testBit t = k1.testBit t) :
    feistel_encrypt sem b (generate_round_keys sem k) =
        feistel_encrypt sem b (generate_round_keys sem k1) ∧
      feistel_decrypt sem b (generate_round_keys sem k) =
        feistel_decrypt sem b (generate_round_keys sem k1) := by
  have hr : ∀ i L, round_function sem L (generate_round_keys sem k i) =
      round_function sem L (generate_round_keys sem k1 i) := fun i L =>
    round_function_congr_key sem _ _
      (Nat.lt_trans (generate_round_keys_lt sem k i) (by decide))
      (Nat.lt_trans (generate_round_keys_lt sem k1 i) (by decide))
      (generate_round_keys_shift_eq sem k k1 hk hk1 h i) L
  unfold feistel_encrypt feistel_decrypt
  simp only []
  rw [encrypt_rounds_congr sem _ _ hr, decrypt_rounds_congr sem _ _ hr]
  exact ⟨rfl, rfl⟩

theorem effective_key_bits_witness :
    (0x0123456789ABCDEF : Nat) < 2 ^ 64 ∧ (0xFFE3456789ABC810 : Nat) < 2 ^ 64 ∧
      feistel_encrypt .wrapCount 0x1122334455667788
          (generate_round_keys .wrapCount 0x0123456789ABCDEF) =
        feistel_encrypt .wrapCount 0x1122334455667788
          (generate_round_keys .wrapCount 0xFFE3456789ABC810) ∧
      feistel_decrypt .wrapCount 0x1122334455667788
          (generate_round_keys .wrapCount 0x0123456789ABCDEF) =
        feistel_decrypt .wrapCount 0x1122334455667788
          (generate_round_keys .wrapCount 0xFFE3456789ABC810) :=
  ⟨by decide, by decide,
    effective_key_bits .wrapCount 0x1122334455667788 0x0123456789ABCDEF 0xFFE3456789ABC810
      (by decide) (by decide) (by
        intro t h11 h52
        interval_cases t <;> decide)⟩

/-- C16: for 32-bit `L` and `K` the code's `round_function` is
`rotl32(L, 9) XOR NOT((K >> 11) AND L)` with a zero-filling right shift, the
complement taken in 64 bits and the result reduced modulo `2 ^ 32` (equally,
the complement taken in 32 bits); hence two 32-bit keys that agree on bits 11
to 31 give the same value. -/
theorem round_function_as_computed (sem : OversizedShift) (L K K1 : Nat) (hL : L < 2 ^ 32)
    (hK : K < 2 ^ 32) (hK1 : K1 < 2 ^ 32) :
    round_function sem L K = (rotl32 L 9 ^^^ not64 (K >>> 11 &&& L)) % 2 ^ 32 ∧
      round_function sem L K = rotl32 L 9 ^^^ not32 (K >>> 11 &&& L) ∧
      ((∀ t, 11 ≤ t → t ≤ 31 → K.testBit t = K1.testBit t) →
        round_function sem L K = round_function sem L K1) := by
  have hs : (K >>> 11) % 2 ^ 32 = K >>> 11 := by
    rw [Nat.shiftRight_eq_div_pow]; omega
  have h2 : round_function sem L K = rotl32 L 9 ^^^ not32 (K >>> 11 &&& L) := by
    rw [round_function_eq sem L K (Nat.lt_trans hK (by decide)),
      circular_left_shift_nine sem L hL, hs, Nat.mod_eq_of_lt hL]
  refine ⟨?_, h2, ?_⟩
  · rw [h2, xor_mod_two_pow, not64_mod, ← circular_left_shift_nine sem L hL,
      circular_left_shift_mod]
  · intro h
    apply round_function_congr_key sem K K1 (Nat.lt_trans hK (by decide))
      (Nat.lt_trans hK1 (by decide))
    rw [shiftRight_eleven_eq K K1 hK hK1 h]

theorem round_function_as_computed_witness :
    (0xFFFFFFFF : Nat) < 2 ^ 32 ∧ (0x000007FF : Nat) < 2 ^ 32 ∧ (0 : Nat) < 2 ^ 32 ∧
      round_function .wrapCount 0xFFFFFFFF 0x000007FF =
        rotl32 0xFFFFFFFF 9 ^^^ not32 (0x000007FF >>> 11 &&& 0xFFFFFFFF) ∧
      round_function .wrapCount 0xFFFFFFFF 0x000007FF = round_function .wrapCount 0xFFFFFFFF 0 :=
  have h := round_function_as_computed .wrapCount 0xFFFFFFFF 0x000007FF 0 (by decide)
    (by decide) (by decide)
  ⟨by decide, by decide, by decide, h.2.1, h.2.2 (by
    intro t h11 h31
    interval_cases t <;> decide)⟩

/-- C17: for every block `b` and every array of 8 round keys, `feistel_decrypt`
on `keys` is `feistel_encrypt` on the reversed array, whose entry `i` is
`keys[7 - i]`. -/
theorem decrypt_is_encrypt_reversed (sem : OversizedShift) (b : Nat)
    (keys : Fin NUM_ROUNDS → Nat) :
    feistel_decrypt sem b keys = feistel_encrypt sem b (reverse_keys keys) ∧
      ∀ i : Fin NUM_ROUNDS,
        reverse_keys keys i = keys (Fin.rev i) ∧ (Fin.rev i).val = 7 - i.val :=
  ⟨feistel_decrypt_eq_encrypt_reverse sem b keys, fun i => by
    have h8 : i.val < 8 := i.isLt
    have hv : (Fin.rev i).val = 7 - i.val := by
      rw [Fin.val_rev]
      show 8 - (i.val + 1) = 7 - i.val
      omega
    refine ⟨?_, hv⟩
    unfold reverse_keys
    congr 1
    exact Fin.ext hv.symm⟩

/-- C18: the zero master key derives eight zero round keys, the zero block
encrypts under them to `0x00000000FFFFFFFF`, and under the all-zero key one
round takes `(0, 0)` to `(0, 0xFFFFFFFF)`, that to `(0xFFFFFFFF, 0)`, and that
back to `(0, 0)`. -/
theorem zero_key_zero_block (sem : OversizedShift) :
    (∀ i : Fin NUM_ROUNDS, generate_round_keys sem 0 i = 0) ∧
      feistel_encrypt sem 0 (generate_round_keys sem 0) = 0x00000000FFFFFFFF ∧
      ∀ i : Fin NUM_ROUNDS,
        encrypt_rounds sem (fun _ => 0) [i] (0, 0) = (0, 0xFFFFFFFF) ∧
        encrypt_rounds sem (fun _ => 0) [i] (0, 0xFFFFFFFF) = (0xFFFFFFFF, 0) ∧
        encrypt_rounds sem (fun _ => 0) [i] (0xFFFFFFFF, 0) = (0, 0) := by
  cases sem <;> decide

end Shifrator
